import Mathlib

/-!
Verification development for the stress repository (src/stress.py and src/qimi2_sim.py).

The Python source is shallowly embedded below.  Strings are modelled as lists of
characters, Python ints as Lean integers or naturals (Python ints are unbounded, so no
wraparound is modelled), Python floats as IEEE-754 binary64 values (a decimal literal
is rounded to the nearest 53-bit mantissa times a power of two, ties to even, with
subnormals and overflow to infinity), and raised exceptions as `none` results.
Telemetry reads and allocation outcomes are supplied by oracle functions, since they
are environment inputs of the program.
-/

namespace Stress

/-! ## Model of the size-string parser `parse_size`
Both source files define the identical function (src/stress.py lines 10-16,
src/qimi2_sim.py lines 5-10).  The source strips and lower-cases the input, then
walks the unit table (k, ki, m, mi, g, gi, t, ti with multipliers 1024 to the powers
1, 1, 2, 2, 3, 3, 4, 4) sorted by decreasing suffix length, and on the first
suffix match returns int(float(front) * multiplier); with no match it returns
int(s). -/

/-- ASCII whitespace test, modelling the characters removed by Python str.strip()
(space, tab, newline, carriage return, vertical tab, form feed; other Unicode
whitespace is not modelled since no claim involves it). -/
def isSpace (c : Char) : Bool :=
  c.toNat == 32 || c.toNat == 9 || c.toNat == 10 || c.toNat == 13 ||
    c.toNat == 11 || c.toNat == 12

/-- ASCII lower-casing of one character, modelling Python str.lower() on the ASCII
range (the only characters the claims involve). -/
def lowerC (c : Char) : Char :=
  if 65 ≤ c.toNat ∧ c.toNat ≤ 90 then Char.ofNat (c.toNat + 32) else c

/-- Decimal digit test (character code between 48 and 57). -/
def isDigitC (c : Char) : Bool :=
  48 ≤ c.toNat && c.toNat ≤ 57

/-- Numeric value of a digit character. -/
def digitVal (c : Char) : ℕ := c.toNat - 48

/-- Value of a string of decimal digits, most significant first. -/
def charsVal (l : List Char) : ℕ := l.foldl (fun a c => 10 * a + digitVal c) 0

/-- True when every character of the list is a decimal digit. -/
def digitsOnly (l : List Char) : Bool := l.all isDigitC

/-- Model of Python str.strip(): drop whitespace from both ends. -/
def trimChars (l : List Char) : List Char :=
  ((l.dropWhile isSpace).reverse.dropWhile isSpace).reverse

/-- headMatch pat l is true when pat is an initial segment of l (used, applied to
reversed lists, to model Python str.endswith). -/
def headMatch : List Char → List Char → Bool
  | [], _ => true
  | _ :: _, [] => false
  | a :: as, b :: bs => a == b && headMatch as bs

/-- Model of Python s.endswith(u): u read backwards is an initial segment of s read
backwards. -/
def endsWithU (l u : List Char) : Bool := headMatch u.reverse l.reverse

/-- Fuel-bounded floor of log2: log2p fuel n halves n until it is below 2, consuming
one fuel per halving; fuel n suffices for every n (16 halvings already reach 1 from
65535).  The fuel makes the recursion structural, so the kernel can evaluate it. -/
def log2p : ℕ → ℕ → ℕ
  | 0, _ => 0
  | fuel + 1, n => if n < 2 then 0 else log2p fuel (n / 2) + 1

/-- Floor of log2 of a natural number (0 for inputs 0 and 1). -/
def natLog2 (n : ℕ) : ℕ := log2p n n

/-- Floor of log2 of the positive fraction n / d, computed by comparing n / d with
the power of two between the floor logs of n and of d. -/
def ilog2 (n d : ℕ) : ℤ :=
  if d * 2 ^ natLog2 n ≤ n * 2 ^ natLog2 d then (natLog2 n : ℤ) - (natLog2 d : ℤ)
  else (natLog2 n : ℤ) - (natLog2 d : ℤ) - 1

/-- Nearest integer to the fraction n / d (d positive), ties to even. -/
def rnearest (n d : ℕ) : ℕ :=
  if 2 * (n % d) < d then n / d
  else if d < 2 * (n % d) then n / d + 1
  else if n / d % 2 = 0 then n / d else n / d + 1

/-- Magnitude of an IEEE-754 binary64 value as this model needs it: a finite
m * 2 ^ t, or infinity.  NaN never arises from the inputs modelled here. -/
inductive DblMag
  | finite (m : ℕ) (t : ℤ)
  | inf
deriving DecidableEq

/-- Overflow test m * 2 ^ t ≥ 2 ^ 1024, written over naturals. -/
def dblTooBig (m : ℕ) (t : ℤ) : Bool :=
  2 ^ 1024 * 2 ^ (max 0 (-t)).toNat ≤ m * 2 ^ (max 0 t).toNat

/-- Round the nonnegative fraction num / den (den positive) to the nearest IEEE-754
binary64 magnitude, ties to even: the grid step is 2 ^ (e - 52) in the normal range
(e the floor of log2 of the value) and 2 ^ (-1074) in the subnormal range, and a
rounded value of 2 ^ 1024 or more overflows to infinity.  This models the correctly
rounded conversion CPython float() performs on a decimal literal. -/
def roundDbl (num den : ℕ) : DblMag :=
  let t : ℤ := max (ilog2 num den - 52) (-1074)
  let m := rnearest (num * 2 ^ (max 0 (-t)).toNat) (den * 2 ^ (max 0 t).toNat)
  if dblTooBig m t then DblMag.inf else DblMag.finite m t

/-- Model of int(x * 2 ^ p) for the double x = m * 2 ^ t with a sign (true is
negative): multiplying a finite double by the exact power of two 2 ^ p shifts only
the exponent (the 53-bit mantissa is unchanged, so no rounding occurs), overflowing
to infinity when the scaled value reaches 2 ^ 1024; int() truncates a finite double
toward zero, and on infinity it raises OverflowError, modelled none. -/
def intOfScaled (sgn : Bool) (v : DblMag) (p : ℕ) : Option ℤ :=
  match v with
  | DblMag.inf => none
  | DblMag.finite m t =>
      if dblTooBig m (t + (p : ℤ)) then none
      else
        let mag : ℕ :=
          if 0 ≤ t + (p : ℤ) then m * 2 ^ (t + (p : ℤ)).toNat
          else m / 2 ^ (-(t + (p : ℤ))).toNat
        some (if sgn then -(mag : ℤ) else (mag : ℤ))

/-- Magnitude part of the float(string) model: digits with an optional single point
and fraction digits.  Digits `ip` point `fp` denote the exact fraction
(ip * 10 ^ |fp| + fp) / 10 ^ |fp|, which is rounded to the nearest binary64 value by
roundDbl, exactly as CPython float() does.  Scientific notation, underscores, inf and
nan literals are not modelled; any other input yields none, modelling a raised
ValueError. -/
def pyFloatMag (body : List Char) : Option DblMag :=
  let ip := body.takeWhile (fun c => !(c == '.'))
  let rest := body.dropWhile (fun c => !(c == '.'))
  match rest with
  | [] =>
      if digitsOnly ip && !ip.isEmpty then some (roundDbl (charsVal ip) 1) else none
  | _ :: fp =>
      if digitsOnly ip && digitsOnly fp && (!ip.isEmpty || !fp.isEmpty) then
        some (roundDbl (charsVal ip * 10 ^ fp.length + charsVal fp) (10 ^ fp.length))
      else none

/-- Model of Python float(string) on an already stripped string: optional sign, then
a plain decimal literal rounded to binary64; the Bool is the sign (true is negative).
none models a raised ValueError. -/
def pyFloat : List Char → Option (Bool × DblMag)
  | [] => none
  | c :: t =>
      if c == '-' then (pyFloatMag t).map (fun v => (true, v))
      else if c == '+' then (pyFloatMag t).map (fun v => (false, v))
      else (pyFloatMag (c :: t)).map (fun v => (false, v))

/-- Model of Python int(string) on an already stripped string: optional sign then
decimal digits; anything else (for example a fractional literal such as 1.5) raises
ValueError, modelled as none.  Underscore digit grouping is not modelled. -/
def pyInt : List Char → Option ℤ
  | [] => none
  | c :: t =>
      if c == '-' then
        (if digitsOnly t && !t.isEmpty then some (-(charsVal t : ℤ)) else none)
      else if c == '+' then
        (if digitsOnly t && !t.isEmpty then some ((charsVal t : ℤ)) else none)
      else if digitsOnly (c :: t) then some ((charsVal (c :: t) : ℤ)) else none

/-- One matched branch of parse_size: drop the unit suffix of length ulen, convert
the front with float(), and return int(float * 1024 ^ pw).  The source multiplier
1024 ^ pw is the exact power of two 2 ^ (10 * pw), which intOfScaled applies to the
double. -/
def sizeBranch (t : List Char) (ulen pw : ℕ) : Option ℤ :=
  (pyFloat (t.take (t.length - ulen))).bind (fun sv => intOfScaled sv.1 sv.2 (10 * pw))

/-- Body of parse_size after strip().lower().  The source iterates over the unit table
sorted by decreasing suffix length; Python sort is stable, so the order is
ki, mi, gi, ti, k, m, g, t (dict insertion order within equal lengths); the loop is
unrolled here over that fixed table, each branch carrying the power of 1024 of its
unit. -/
def psAfter (t : List Char) : Option ℤ :=
  if endsWithU t ['k', 'i'] then sizeBranch t 2 1
  else if endsWithU t ['m', 'i'] then sizeBranch t 2 2
  else if endsWithU t ['g', 'i'] then sizeBranch t 2 3
  else if endsWithU t ['t', 'i'] then sizeBranch t 2 4
  else if endsWithU t ['k'] then sizeBranch t 1 1
  else if endsWithU t ['m'] then sizeBranch t 1 2
  else if endsWithU t ['g'] then sizeBranch t 1 3
  else if endsWithU t ['t'] then sizeBranch t 1 4
  else pyInt t

/-- Model of parse_size on a list of characters. -/
def parseSizeChars (l : List Char) : Option ℤ :=
  psAfter ((trimChars l).map lowerC)

/-- Model of parse_size on a string; none models a raised ValueError. -/
def parse_size (s : String) : Option ℤ := parseSizeChars s.data

/-- The eight unit suffixes of the table in parse_size. -/
inductive SizeUnit
  | ki | mi | gi | ti | k | m | g | t
deriving DecidableEq

/-- Lower-case characters of a unit suffix. -/
def SizeUnit.chars : SizeUnit → List Char
  | .ki => ['k', 'i']
  | .mi => ['m', 'i']
  | .gi => ['g', 'i']
  | .ti => ['t', 'i']
  | .k => ['k']
  | .m => ['m']
  | .g => ['g']
  | .t => ['t']

/-- Power of 1024 that a unit denotes. -/
def SizeUnit.pow : SizeUnit → ℕ
  | .ki | .k => 1
  | .mi | .m => 2
  | .gi | .g => 3
  | .ti | .t => 4

/-- Multiplier of a unit: 1024 to its power. -/
def SizeUnit.mul (u : SizeUnit) : ℕ := 1024 ^ u.pow

/-! ## Model of the memory-pressure allocation loop
mem_burst (src/qimi2_sim.py lines 91-111) and allocate_slow (src/stress.py lines
113-136) run the same loop; the two relevant differences, both kept in the model, are:
mem_burst reads the memory limit once before the loop (line 93) while allocate_slow
re-reads it on every iteration inside the loop (line 118), and allocate_slow logs one
extra final record after the loop (line 135).  Telemetry reads and allocation outcomes
are oracles of the environment: curSeq i is the value of the read_mem_current call in
the headroom check of iteration i, limSeq j is the value of the j-th
read_cgroup_limits call made for the headroom check, and allocOk i tells whether the
bytearray allocation of iteration i succeeds (false models a raised MemoryError).
Byte counts are naturals; the Python guard `cur >= max(0, lim - headroom_bytes)` is
exactly truncated Nat subtraction `lim - headroom ≤ cur`.  The telemetry re-read that
the source does after a successful allocation only feeds the progress log record and
affects neither control flow nor the return value, so its value is not modelled;
time.sleep and log text are likewise not modelled.  The loop may not terminate (see
claim C10), so the model takes a fuel argument; none means the fuel was exhausted. -/

/-- Log records the loop emits, by tag and the numeric payload that the claims
mention. -/
inductive MemEvent
  | start
  | plan (bsz allocated : ℕ)
  | progress (allocated : ℕ)
  | headroomStop (cur lim : ℕ)
  | memoryError (allocated : ℕ)
  | done (allocated : ℕ)
deriving DecidableEq

/-- Result of a terminated run of the loop: the retained block sizes in order, the
final allocated counter, the log records, and the number of fully executed loop
bodies. -/
structure MemResult where
  blocks : List ℕ
  allocated : ℕ
  events : List MemEvent
  iters : ℕ
deriving DecidableEq

/-- Headroom check of one iteration: some (cur, lim) when both reads are known and
cur ≥ max(0, lim − headroom), i.e. the loop must stop; none otherwise. -/
def stopCheck (lim cur : Option ℕ) (headroom : ℕ) : Option (ℕ × ℕ) :=
  match lim, cur with
  | some l, some c => if l - headroom ≤ c then some (c, l) else none
  | _, _ => none

/-- Environment oracle for one run of the engine. -/
structure MemEnv where
  limSeq : ℕ → Option ℕ
  curSeq : ℕ → Option ℕ
  allocOk : ℕ → Bool

/-- The while loop shared by mem_burst and allocate_slow.  limAt i is the limit value
the headroom check of iteration i uses (constant for mem_burst, fresh for
allocate_slow).  Each iteration: if allocated < want, run the headroom check and stop
on it; otherwise compute bsz = min block (want − allocated), log the plan record,
allocate (returning the partial state on MemoryError, which the source catches around
the whole loop), append the block and advance allocated. -/
def memLoop (curAt limAt : ℕ → Option ℕ) (allocOk : ℕ → Bool)
    (want block headroom : ℕ) :
    ℕ → ℕ → List ℕ → ℕ → List MemEvent → Option MemResult
  | 0, _, _, _, _ => none
  | fuel + 1, i, blocks, allocated, events =>
    if allocated < want then
      match stopCheck (limAt i) (curAt i) headroom with
      | some cl =>
          some ⟨blocks, allocated, events ++ [MemEvent.headroomStop cl.1 cl.2], i⟩
      | none =>
          let bsz := min block (want - allocated)
          if allocOk i then
            memLoop curAt limAt allocOk want block headroom fuel (i + 1)
              (blocks ++ [bsz]) (allocated + bsz)
              (events ++ [MemEvent.plan bsz allocated, MemEvent.progress (allocated + bsz)])
          else
            some ⟨blocks, allocated,
              events ++ [MemEvent.plan bsz allocated, MemEvent.memoryError allocated], i⟩
    else
      some ⟨blocks, allocated, events, i⟩

/-- Model of mem_burst (src/qimi2_sim.py lines 91-111): the limit is read once before
the loop (line 93) and that same value is used by the headroom check of every
iteration. -/
def mem_burst (env : MemEnv) (want block headroom fuel : ℕ) : Option MemResult :=
  memLoop env.curSeq (fun _ => env.limSeq 0) env.allocOk want block headroom
    fuel 0 [] 0 [MemEvent.start]

/-- Model of allocate_slow (src/stress.py lines 113-136): both current usage and the
limit are re-read inside the loop on every iteration (line 118), and a final done
record is logged after the loop (line 135). -/
def allocate_slow (env : MemEnv) (total block headroom fuel : ℕ) : Option MemResult :=
  (memLoop env.curSeq env.limSeq env.allocOk total block headroom
      fuel 0 [] 0 [MemEvent.start]).map
    (fun r => ⟨r.blocks, r.allocated, r.events ++ [MemEvent.done r.allocated], r.iters⟩)

/-- Modelled from the spec words for the refinement comparison in claim C3 (spec:
"Immutable snapshot; re-read on demand, never cached across the run" and "Sample
current usage and limit via LimitReader" on every iteration): a variant of mem_burst
whose headroom check re-reads the limit freshly on every iteration. -/
def mem_burst_freshLimit (env : MemEnv) (want block headroom fuel : ℕ) : Option MemResult :=
  memLoop env.curSeq env.limSeq env.allocOk want block headroom
    fuel 0 [] 0 [MemEvent.start]

/-! ## Model of the I/O burst engine
io_burst (src/qimi2_sim.py lines 139-162) is modelled as the trace of filesystem and
log actions it performs.  The makedirs and mkstemp calls are assumed to succeed (a
failure there is not caught by the source and no claim concerns it).  The failAt
oracle tells whether and where the body of the try block raises: none means every
write and the flush/fsync succeed; some j means the j-th write call raises (j past
the number of chunks models a failure in flush or fsync after all writes).  The
finally block always runs, so the removal attempt is always in the trace. -/

/-- Filesystem and log actions of io_burst, in order. -/
inductive IOAction
  | logSkip
  | mkstemp
  | write (n : ℕ)
  | flushSync
  | logDone
  | logError
  | removeAttempt
deriving DecidableEq

/-- Chunk sizes of the write loop of io_burst: while left > 0 write
min(left, 1048576) bytes (the source chunk is 1 MiB of zeros). -/
def ioChunks : ℕ → List ℕ
  | 0 => []
  | left + 1 =>
      min (left + 1) 1048576 :: ioChunks ((left + 1) - min (left + 1) 1048576)
decreasing_by omega

/-- Byte count carried by a write action, none for every other action. -/
def writeSize : IOAction → Option ℕ
  | .write n => some n
  | _ => none

/-- Model of io_burst (src/qimi2_sim.py lines 139-162).  size is the Python int
size_bytes; the source returns after a skip log when size_bytes <= 0, otherwise
creates the temp file, writes the chunks inside try, logs done after flush and fsync,
logs the error instead if the body raises, and in both cases attempts the removal in
the finally block. -/
def io_burst (size : ℤ) (failAt : Option ℕ) : List IOAction :=
  if size ≤ 0 then [IOAction.logSkip]
  else
    match failAt with
    | none =>
        IOAction.mkstemp :: ((ioChunks size.toNat).map IOAction.write)
          ++ [IOAction.flushSync, IOAction.logDone, IOAction.removeAttempt]
    | some j =>
        IOAction.mkstemp :: (((ioChunks size.toNat).take j).map IOAction.write)
          ++ [IOAction.logError, IOAction.removeAttempt]

/-! ## Model of the CPU worker joins
Only the shutdown waits are modelled, since claim C7 is about the timeout each join
call passes; real elapsed time is outside a shallow embedding. -/

/-- Translated from cpu_burst (src/qimi2_sim.py lines 123-137): the parent spawns
nproc workers and then runs `for p in procs: p.join()` — one join per worker, with no
timeout argument.  The list holds the timeout passed to each join call in order;
none means the join has no timeout. -/
def cpu_burst_joinTimeouts (nproc : ℕ) : List (Option ℚ) :=
  List.replicate nproc none

/-- Translated from run_cpu_ramp (src/stress.py lines 150-171): the parent runs
`for p in workers: p.join(timeout=1.0)` over the started workers — one join per
worker with a 1.0 second timeout. -/
def run_cpu_ramp_joinTimeouts (started : ℕ) : List (Option ℚ) :=
  List.replicate started (some 1)

/-! ## Model of the Burst-mode orchestrator
main of src/qimi2_sim.py (lines 164-217) is modelled as the ordered list of its
orchestration steps, which is what claim C4 is about. -/

/-- Orchestration steps of main in src/qimi2_sim.py.  runMemBurst is the inline call
blocks = mem_burst(...) (lines 191-196); startIOUnit is io_proc.start() of the
io_burst process (lines 199-201); runCpuBurst is the inline call cpu_burst(...)
(line 203), which spawns the CPU worker processes and joins them all before
returning; joinIOUnit is io_proc.join(timeout=1.0) (line 205); sampleFinal reads
mem current and peak and the cpu stat (lines 207-208); logSummary emits the final
record (lines 209-215). -/
inductive OrchStep
  | readLimits
  | sampleCpuStat
  | runMemBurst
  | startIOUnit
  | runCpuBurst
  | joinIOUnit
  | sampleFinal
  | logSummary
deriving DecidableEq

/-- The step order of main in src/qimi2_sim.py (lines 182-215), as written in the
source: limits are read and logged, the baseline cpu stat sample is taken, the memory
burst runs inline, only then the io process is started, the cpu burst runs inline and
joins its workers, the io process is joined with timeout 1.0, and the final sample
and summary follow. -/
def burstMain : List OrchStep :=
  [OrchStep.readLimits, OrchStep.sampleCpuStat, OrchStep.runMemBurst,
   OrchStep.startIOUnit, OrchStep.runCpuBurst, OrchStep.joinIOUnit,
   OrchStep.sampleFinal, OrchStep.logSummary]

/-! ## Concrete environments used by the scenario parts of the theorems and by the
witnesses. -/

/-- One MiB. -/
def Mi : ℕ := 1048576

/-- Environment of the headroom scenario of claim C2: the simulated limit is a
constant 200 MiB and the simulated current usage sampled before iteration i is
i * 80 MiB (0, 80 MiB, 160 MiB, ...); every allocation succeeds. -/
def scenEnv : MemEnv :=
  ⟨fun _ => some (200 * Mi), fun i => some (i * 80 * Mi), fun _ => true⟩

/-- Environment of the claim C3 counterexample: the limit read before the loop is
unknown, every later limit read returns 1 byte, current usage is always 1000 bytes,
every allocation succeeds.  A fresh re-read of the limit would therefore stop the
loop at iteration 1, while the cached pre-loop value never stops it. -/
def envC3 : MemEnv :=
  ⟨fun i => if i = 0 then none else some 1, fun _ => some 1000, fun _ => true⟩

/-- A variant of envC3 that differs only in the limit readings after the first one;
used by the C3 witness to show the cached-limit invariance at work. -/
def envC3b : MemEnv :=
  ⟨fun i => if i = 0 then none else some 999999, fun _ => some 1000, fun _ => true⟩

/-- Environment with no telemetry at all and successful allocations; used by
witnesses. -/
def envNoTel : MemEnv := ⟨fun _ => none, fun _ => none, fun _ => true⟩

/-- Environment with no telemetry whose every allocation fails; used by the C5
witness. -/
def envAllocFail : MemEnv := ⟨fun _ => none, fun _ => none, fun _ => false⟩

/-- Result of the run used by the C1 witness. -/
def resC1 : MemResult :=
  ⟨[4, 4, 2], 10,
   [MemEvent.start, MemEvent.plan 4 0, MemEvent.progress 4, MemEvent.plan 4 4,
    MemEvent.progress 8, MemEvent.plan 2 8, MemEvent.progress 10], 3⟩

end Stress

namespace Stress

/-! ## General lemmas about the allocation loop -/

/-- Running-total invariant of the allocation loop: from any state whose block sizes
sum to the allocated counter without exceeding the target, a terminated run returns a
state with the same property. -/
lemma memLoop_total (curAt limAt : ℕ → Option ℕ) (allocOk : ℕ → Bool)
    (want block headroom : ℕ) :
    ∀ (fuel i : ℕ) (blocks : List ℕ) (allocated : ℕ) (events : List MemEvent)
      (r : MemResult),
      blocks.sum = allocated → allocated ≤ want →
      memLoop curAt limAt allocOk want block headroom fuel i blocks allocated events
        = some r →
      r.blocks.sum = r.allocated ∧ r.allocated ≤ want := by
  intro fuel
  induction fuel with
  | zero =>
    intro i blocks allocated events r h1 h2 h3
    simp [memLoop] at h3
  | succ n ih =>
    intro i blocks allocated events r h1 h2 h3
    rw [memLoop] at h3
    by_cases hlt : allocated < want
    · rw [if_pos hlt] at h3
      cases hsc : stopCheck (limAt i) (curAt i) headroom with
      | some cl =>
        rw [hsc] at h3
        simp only [Option.some.injEq] at h3
        subst h3
        exact ⟨h1, h2⟩
      | none =>
        rw [hsc] at h3
        simp only at h3
        by_cases hok : allocOk i = true
        · rw [if_pos hok] at h3
          refine ih (i + 1) _ _ _ r ?_ ?_ h3
          · simp [h1]
          · have := Nat.min_le_right block (want - allocated)
            omega
        · rw [if_neg hok] at h3
          simp only [Option.some.injEq] at h3
          subst h3
          exact ⟨h1, h2⟩
    · rw [if_neg hlt] at h3
      simp only [Option.some.injEq] at h3
      subst h3
      exact ⟨h1, h2⟩

/-- One-step stop lemma: when the target is not yet reached and both telemetry reads
of the iteration are known with current at or above limit minus headroom, the loop
returns the state unchanged, logging exactly one headroom-stop record. -/
lemma memLoop_stop (curAt limAt : ℕ → Option ℕ) (allocOk : ℕ → Bool)
    (want block headroom fuel i : ℕ) (blocks : List ℕ) (allocated : ℕ)
    (events : List MemEvent) (l c : ℕ)
    (hlt : allocated < want) (hl : limAt i = some l) (hc : curAt i = some c)
    (hge : l - headroom ≤ c) :
    memLoop curAt limAt allocOk want block headroom (fuel + 1) i blocks allocated events
      = some ⟨blocks, allocated, events ++ [MemEvent.headroomStop c l], i⟩ := by
  rw [memLoop, if_pos hlt]
  have hsc : stopCheck (limAt i) (curAt i) headroom = some (c, l) := by
    rw [hl, hc]
    simp [stopCheck, hge]
  rw [hsc]

/-- One-step allocation-failure lemma: when the target is not yet reached, the
headroom check does not fire and the allocation of the iteration fails, the loop
returns the state unchanged after logging the plan record and the MemoryError
record. -/
lemma memLoop_fail (curAt limAt : ℕ → Option ℕ) (allocOk : ℕ → Bool)
    (want block headroom fuel i : ℕ) (blocks : List ℕ) (allocated : ℕ)
    (events : List MemEvent)
    (hlt : allocated < want)
    (hsc : stopCheck (limAt i) (curAt i) headroom = none)
    (hok : allocOk i = false) :
    memLoop curAt limAt allocOk want block headroom (fuel + 1) i blocks allocated events
      = some ⟨blocks, allocated,
          events ++ [MemEvent.plan (min block (want - allocated)) allocated,
                     MemEvent.memoryError allocated], i⟩ := by
  rw [memLoop, if_pos hlt, hsc]
  simp only [hok]
  simp

/-- Arithmetic step of the iteration count: removing one block of size
min block rem from a positive remainder decreases the ceiling of rem / block by
exactly one. -/
lemma ceilDiv_succ (block rem : ℕ) (hb : 1 ≤ block) (hr : 1 ≤ rem) :
    (rem + block - 1) / block = (rem - min block rem + block - 1) / block + 1 := by
  have h1 : rem + block - 1 = (rem - 1) + block := by omega
  rw [h1, Nat.add_div_right _ hb]
  suffices h : (rem - 1) / block = (rem - min block rem + block - 1) / block by omega
  rcases le_or_lt rem block with h | h
  · have hm : rem - min block rem = 0 := by omega
    rw [hm]
    have h2 : (rem - 1) / block = 0 := Nat.div_eq_of_lt (by omega)
    have h3 : (0 + block - 1) / block = 0 := Nat.div_eq_of_lt (by omega)
    omega
  · have hm : rem - min block rem + block - 1 = rem - 1 := by omega
    rw [hm]

/-- Complete-run lemma: with a positive block size, every allocation succeeding and
the headroom check never firing, the loop reaches the target exactly, executing one
body per ceiling step of the remainder. -/
lemma memLoop_run (curAt limAt : ℕ → Option ℕ) (allocOk : ℕ → Bool)
    (want block headroom : ℕ) (hb : 1 ≤ block)
    (hok : ∀ k, allocOk k = true)
    (hns : ∀ k, stopCheck (limAt k) (curAt k) headroom = none) :
    ∀ (fuel i : ℕ) (blocks : List ℕ) (allocated : ℕ) (events : List MemEvent),
      allocated ≤ want →
      (want - allocated + block - 1) / block + 1 ≤ fuel →
      (memLoop curAt limAt allocOk want block headroom fuel i blocks allocated
          events).map (fun r => (r.iters, r.allocated))
        = some (i + (want - allocated + block - 1) / block, want) := by
  intro fuel
  induction fuel with
  | zero =>
    intro i blocks allocated events hle hfuel
    exact absurd hfuel (Nat.not_succ_le_zero _)
  | succ n ih =>
    intro i blocks allocated events hle hfuel
    rw [memLoop]
    by_cases hlt : allocated < want
    · rw [if_pos hlt, hns i]
      simp only [hok i, if_pos]
      have hrem : 1 ≤ want - allocated := by omega
      have hceil := ceilDiv_succ block (want - allocated) hb hrem
      have harg : want - (allocated + min block (want - allocated))
          = want - allocated - min block (want - allocated) := by omega
      have hle2 : allocated + min block (want - allocated) ≤ want := by
        have := Nat.min_le_right block (want - allocated)
        omega
      have := ih (i + 1) (blocks ++ [min block (want - allocated)])
        (allocated + min block (want - allocated))
        (events ++ [MemEvent.plan (min block (want - allocated)) allocated,
                    MemEvent.progress (allocated + min block (want - allocated))])
        hle2 (by rw [harg]; omega)
      rw [this, harg]
      have : i + 1 + (want - allocated - min block (want - allocated) + block - 1) / block
          = i + (want - allocated + block - 1) / block := by omega
      rw [this]
    · rw [if_neg hlt]
      have heq : allocated = want := by omega
      have hz : (want - allocated + block - 1) / block = 0 :=
        Nat.div_eq_of_lt (by omega)
      rw [hz]
      simp [heq]

/-- With block size zero, a positive remaining target, every allocation succeeding
and the headroom check never firing, the loop never terminates: the allocated
counter never advances, so every fuel bound is exhausted. -/
lemma memLoop_zero_block (curAt limAt : ℕ → Option ℕ) (allocOk : ℕ → Bool)
    (want headroom : ℕ)
    (hok : ∀ k, allocOk k = true)
    (hns : ∀ k, stopCheck (limAt k) (curAt k) headroom = none) :
    ∀ (fuel i : ℕ) (blocks : List ℕ) (allocated : ℕ) (events : List MemEvent),
      allocated < want →
      memLoop curAt limAt allocOk want 0 headroom fuel i blocks allocated events
        = none := by
  intro fuel
  induction fuel with
  | zero => intro i blocks allocated events hlt; rfl
  | succ n ih =>
    intro i blocks allocated events hlt
    rw [memLoop, if_pos hlt, hns i]
    simp only [hok i, if_pos]
    simpa using ih (i + 1) (blocks ++ [min 0 (want - allocated)])
      (allocated + min 0 (want - allocated)) _ (by omega)

end Stress

namespace Stress

/-- Claim C1: for every run of the memory-pressure allocation loop (mem_burst or
allocate_slow), with any targetBytes and blockBytes and regardless of whether a limit
is supplied, the sum of the sizes of the returned blocks never exceeds targetBytes,
and the running total (the allocated counter) equals the sum of the appended block
sizes. -/
theorem c1_total_le_target :
    (∀ (env : MemEnv) (want block headroom fuel : ℕ) (r : MemResult),
        mem_burst env want block headroom fuel = some r →
        r.blocks.sum = r.allocated ∧ r.allocated ≤ want) ∧
    (∀ (env : MemEnv) (total block headroom fuel : ℕ) (r : MemResult),
        allocate_slow env total block headroom fuel = some r →
        r.blocks.sum = r.allocated ∧ r.allocated ≤ total) := by
  constructor
  · intro env want block headroom fuel r h
    exact memLoop_total _ _ _ _ _ _ fuel 0 [] 0 [MemEvent.start] r rfl (Nat.zero_le _) h
  · intro env total block headroom fuel r h
    rw [allocate_slow, Option.map_eq_some'] at h
    obtain ⟨r0, h0, hr⟩ := h
    have := memLoop_total _ _ _ _ _ _ fuel 0 [] 0 [MemEvent.start] r0 rfl (Nat.zero_le _) h0
    subst hr
    exact this

/-- Witness for claim C1 at a concrete run: target 10, block 4, no telemetry. -/
theorem c1_witness : resC1.blocks.sum = resC1.allocated ∧ resC1.allocated ≤ 10 :=
  c1_total_le_target.1 envNoTel 10 4 0 10 resC1 (by decide)

/-- Claim C2: whenever limit and current usage are both known at an iteration and
current ≥ limit − headroomBytes, the engine stops at that iteration via the headroom
check, returning the blocks allocated so far and logging a headroom-stop record; in
the simulated scenario (limit 200 MiB, headroom 50 MiB, blocks of 80 MiB, current
usage reaching 160 MiB after two blocks) it returns exactly 2 blocks totalling
160 MiB with a headroom-stop record and no third allocation. -/
theorem c2_headroom_stop :
    (∀ (curAt limAt : ℕ → Option ℕ) (allocOk : ℕ → Bool)
        (want block headroom fuel i : ℕ) (blocks : List ℕ) (allocated : ℕ)
        (events : List MemEvent) (l c : ℕ),
        allocated < want → limAt i = some l → curAt i = some c →
        l - headroom ≤ c →
        memLoop curAt limAt allocOk want block headroom (fuel + 1) i blocks allocated
            events
          = some ⟨blocks, allocated, events ++ [MemEvent.headroomStop c l], i⟩) ∧
    mem_burst scenEnv (240 * Mi) (80 * Mi) (50 * Mi) 4
      = some ⟨[80 * Mi, 80 * Mi], 160 * Mi,
          [MemEvent.start, MemEvent.plan (80 * Mi) 0, MemEvent.progress (80 * Mi),
           MemEvent.plan (80 * Mi) (80 * Mi), MemEvent.progress (160 * Mi),
           MemEvent.headroomStop (160 * Mi) (200 * Mi)], 2⟩ := by
  constructor
  · intro curAt limAt allocOk want block headroom fuel i blocks allocated events l c
      hlt hl hc hge
    exact memLoop_stop curAt limAt allocOk want block headroom fuel i blocks allocated
      events l c hlt hl hc hge
  · decide

/-- Witness for the universally quantified part of claim C2 at a concrete
iteration state. -/
theorem c2_witness :
    memLoop (fun _ => some 20) (fun _ => some 10) (fun _ => true) 100 7 2 1 0 [] 0 []
      = some ⟨[], 0, [MemEvent.headroomStop 20 10], 0⟩ :=
  c2_headroom_stop.1 (fun _ => some 20) (fun _ => some 10) (fun _ => true) 100 7 2 0 0
    [] 0 [] 10 20 (by decide) rfl rfl (by decide)

/-- Counterexample to claim C3 as stated: in environment envC3 the fresh-limit
variant demanded by the claim stops after one block, while mem_burst, which caches
the limit read before the loop, runs to the full target; so the limit used by the
headroom check of mem_burst is not freshly re-read on every iteration. -/
theorem c3_counterexample :
    mem_burst envC3 10 5 0 5 ≠ mem_burst_freshLimit envC3 10 5 0 5 := by
  decide

/-- Claim C3 as amended: in allocate_slow both usage and limit are re-read on every
iteration (in envC3 the fresh limit reading of iteration 1 stops the run), but in
mem_burst only the usage read is fresh: the limit is read once before the loop, and
the result of mem_burst is invariant under any change of the limit readings after
that first one. -/
theorem c3_limit_cached :
    (∀ (e1 e2 : MemEnv) (want block headroom fuel : ℕ),
        e1.curSeq = e2.curSeq → e1.allocOk = e2.allocOk →
        e1.limSeq 0 = e2.limSeq 0 →
        mem_burst e1 want block headroom fuel = mem_burst e2 want block headroom fuel) ∧
    allocate_slow envC3 10 5 0 5
      = some ⟨[5], 5, [MemEvent.start, MemEvent.plan 5 0, MemEvent.progress 5,
                       MemEvent.headroomStop 1000 1, MemEvent.done 5], 1⟩ := by
  constructor
  · intro e1 e2 want block headroom fuel h1 h2 h3
    rw [mem_burst, mem_burst, h1, h2]
    have : (fun _ : ℕ => e1.limSeq 0) = (fun _ : ℕ => e2.limSeq 0) := by
      funext _
      rw [h3]
    rw [this]
  · decide

/-- Witness for the invariance part of claim C3: envC3 and envC3b differ in every
limit reading after the first, yet mem_burst behaves identically on them. -/
theorem c3_witness : mem_burst envC3 10 5 0 5 = mem_burst envC3b 10 5 0 5 :=
  c3_limit_cached.1 envC3 envC3b 10 5 0 5 rfl rfl rfl

end Stress

namespace Stress

/-- The headroom check cannot fire when the limit reading is unknown. -/
lemma stopCheck_none_left (cur : Option ℕ) (headroom : ℕ) :
    stopCheck none cur headroom = none := by
  cases cur <;> rfl

/-- Claim C5: a MemoryError raised by an allocation inside the loop is caught and not
propagated: the loop returns the blocks allocated before the failure, the running
total is unchanged by the failed allocation, and a record carrying the partial total
is logged.  Stated for the shared loop at any iteration state and for both engines
from the start with a first-allocation failure. -/
theorem c5_memory_error_caught :
    (∀ (curAt limAt : ℕ → Option ℕ) (allocOk : ℕ → Bool)
        (want block headroom fuel i : ℕ) (blocks : List ℕ) (allocated : ℕ)
        (events : List MemEvent),
        allocated < want →
        stopCheck (limAt i) (curAt i) headroom = none →
        allocOk i = false →
        memLoop curAt limAt allocOk want block headroom (fuel + 1) i blocks allocated
            events
          = some ⟨blocks, allocated,
              events ++ [MemEvent.plan (min block (want - allocated)) allocated,
                         MemEvent.memoryError allocated], i⟩) ∧
    (∀ (env : MemEnv) (want block headroom fuel : ℕ),
        0 < want → env.limSeq 0 = none → env.allocOk 0 = false →
        mem_burst env want block headroom (fuel + 1)
          = some ⟨[], 0, [MemEvent.start, MemEvent.plan (min block want) 0,
                          MemEvent.memoryError 0], 0⟩) ∧
    (∀ (env : MemEnv) (total block headroom fuel : ℕ),
        0 < total → env.limSeq 0 = none → env.allocOk 0 = false →
        allocate_slow env total block headroom (fuel + 1)
          = some ⟨[], 0, [MemEvent.start, MemEvent.plan (min block total) 0,
                          MemEvent.memoryError 0, MemEvent.done 0], 0⟩) := by
  refine ⟨?_, ?_, ?_⟩
  · intro curAt limAt allocOk want block headroom fuel i blocks allocated events
      hlt hsc hok
    exact memLoop_fail curAt limAt allocOk want block headroom fuel i blocks allocated
      events hlt hsc hok
  · intro env want block headroom fuel hw hlim hok
    rw [mem_burst]
    have := memLoop_fail env.curSeq (fun _ => env.limSeq 0) env.allocOk want block
      headroom fuel 0 [] 0 [MemEvent.start] hw
      (by rw [hlim]; exact stopCheck_none_left _ _) hok
    simpa using this
  · intro env total block headroom fuel hw hlim hok
    rw [allocate_slow]
    have := memLoop_fail env.curSeq env.limSeq env.allocOk total block
      headroom fuel 0 [] 0 [MemEvent.start] hw
      (by rw [hlim]; exact stopCheck_none_left _ _) hok
    rw [this]
    simp

/-- Witness for claim C5: a first-allocation failure in a concrete environment. -/
theorem c5_witness :
    mem_burst envAllocFail 8 3 0 1
      = some ⟨[], 0, [MemEvent.start, MemEvent.plan 3 0, MemEvent.memoryError 0], 0⟩ :=
  c5_memory_error_caught.2.1 envAllocFail 8 3 0 0 (by decide) rfl rfl

/-- Claim C10: with every allocation succeeding and the headroom check never firing,
both engines terminate after exactly ceil(targetBytes / blockBytes) loop bodies for
any blockBytes ≥ 1 and reach the target exactly; and with blockBytes = 0 and a
positive target the allocated counter never advances, so no fuel bound suffices: the
loop does not terminate. -/
theorem c10_iterations :
    (∀ (env : MemEnv) (want block headroom fuel : ℕ),
        1 ≤ block → (∀ k, env.allocOk k = true) →
        (∀ i j, stopCheck (env.limSeq j) (env.curSeq i) headroom = none) →
        (want + block - 1) / block + 1 ≤ fuel →
        (mem_burst env want block headroom fuel).map (fun r => (r.iters, r.allocated))
          = some ((want + block - 1) / block, want)) ∧
    (∀ (env : MemEnv) (total block headroom fuel : ℕ),
        1 ≤ block → (∀ k, env.allocOk k = true) →
        (∀ i j, stopCheck (env.limSeq j) (env.curSeq i) headroom = none) →
        (total + block - 1) / block + 1 ≤ fuel →
        (allocate_slow env total block headroom fuel).map
            (fun r => (r.iters, r.allocated))
          = some ((total + block - 1) / block, total)) ∧
    (∀ (env : MemEnv) (want headroom fuel : ℕ),
        0 < want → (∀ k, env.allocOk k = true) →
        (∀ i j, stopCheck (env.limSeq j) (env.curSeq i) headroom = none) →
        mem_burst env want 0 headroom fuel = none) ∧
    (∀ (env : MemEnv) (total headroom fuel : ℕ),
        0 < total → (∀ k, env.allocOk k = true) →
        (∀ i j, stopCheck (env.limSeq j) (env.curSeq i) headroom = none) →
        allocate_slow env total 0 headroom fuel = none) := by
  refine ⟨?_, ?_, ?_, ?_⟩
  · intro env want block headroom fuel hb hok hns hfuel
    rw [mem_burst]
    have := memLoop_run env.curSeq (fun _ => env.limSeq 0) env.allocOk want block
      headroom hb hok (fun k => hns k 0) fuel 0 [] 0 [MemEvent.start]
      (Nat.zero_le _) (by simpa using hfuel)
    simpa using this
  · intro env total block headroom fuel hb hok hns hfuel
    rw [allocate_slow, Option.map_map]
    have hcomp : ((fun r : MemResult => (r.iters, r.allocated)) ∘
        (fun r : MemResult =>
          (⟨r.blocks, r.allocated, r.events ++ [MemEvent.done r.allocated],
            r.iters⟩ : MemResult)))
        = fun r : MemResult => (r.iters, r.allocated) := rfl
    rw [hcomp]
    have := memLoop_run env.curSeq env.limSeq env.allocOk total block
      headroom hb hok (fun k => hns k k) fuel 0 [] 0 [MemEvent.start]
      (Nat.zero_le _) (by simpa using hfuel)
    simpa using this
  · intro env want headroom fuel hw hok hns
    rw [mem_burst]
    exact memLoop_zero_block env.curSeq (fun _ => env.limSeq 0) env.allocOk want
      headroom hok (fun k => hns k 0) fuel 0 [] 0 [MemEvent.start] hw
  · intro env total headroom fuel hw hok hns
    rw [allocate_slow]
    rw [memLoop_zero_block env.curSeq env.limSeq env.allocOk total
      headroom hok (fun k => hns k k) fuel 0 [] 0 [MemEvent.start] hw]
    rfl

/-- Witness for claim C10: target 10 and block 4 terminate in exactly 3 iterations
with fuel 4. -/
theorem c10_witness :
    (mem_burst envNoTel 10 4 0 4).map (fun r => (r.iters, r.allocated))
      = some (3, 10) :=
  c10_iterations.1 envNoTel 10 4 0 4 (by decide) (fun _ => rfl)
    (fun _ _ => rfl) (by decide)

end Stress

namespace Stress

/-- The chunk sizes of the write loop sum to exactly the requested byte count. -/
lemma ioChunks_sum : ∀ n, (ioChunks n).sum = n := by
  intro n
  induction n using Nat.strong_induction_on with
  | _ n ih =>
    cases n with
    | zero => simp [ioChunks]
    | succ m =>
      have hlt : (m + 1) - min (m + 1) 1048576 < m + 1 := by omega
      rw [ioChunks, List.sum_cons, ih _ hlt]
      omega

/-- Every chunk of the write loop is positive and at most one MiB. -/
lemma ioChunks_mem : ∀ n c, c ∈ ioChunks n → 1 ≤ c ∧ c ≤ 1048576 := by
  intro n
  induction n using Nat.strong_induction_on with
  | _ n ih =>
    cases n with
    | zero => simp [ioChunks]
    | succ m =>
      intro c hc
      rw [ioChunks] at hc
      rcases List.mem_cons.mp hc with h | h
      · omega
      · exact ih _ (by omega) c h

/-- Composing the write constructor with the write projection is the identity on
chunk lists. -/
lemma filterMap_writeSize (l : List ℕ) :
    List.filterMap (writeSize ∘ IOAction.write) l = l := by
  induction l with
  | nil => rfl
  | cons a t ih => simp [writeSize, ih]

/-- Claim C6: with sizeBytes = 0 the I/O engine performs no filesystem writes and
creates no file (its trace is just the skip record); with sizeBytes = N > 0 and no
failure it writes exactly N zero bytes in chunks of at most 1 MiB; and the removal of
the temporary file is attempted unconditionally afterwards, whether or not the write,
flush or sync succeeded. -/
theorem c6_io_burst :
    (∀ failAt : Option ℕ, io_burst 0 failAt = [IOAction.logSkip]) ∧
    (∀ size : ℤ, 0 < size →
        ((io_burst size none).filterMap writeSize).sum = size.toNat ∧
        (∀ n : ℕ, IOAction.write n ∈ io_burst size none → 1 ≤ n ∧ n ≤ 1048576)) ∧
    (∀ (size : ℤ) (failAt : Option ℕ), 0 < size →
        IOAction.removeAttempt ∈ io_burst size failAt) := by
  refine ⟨?_, ?_, ?_⟩
  · intro failAt
    simp [io_burst]
  · intro size hpos
    have hns : ¬ size ≤ 0 := by omega
    constructor
    · rw [io_burst, if_neg hns]
      simp [List.filterMap_append, filterMap_writeSize, writeSize, ioChunks_sum]
    · intro n hn
      rw [io_burst, if_neg hns] at hn
      have hn2 : n ∈ ioChunks size.toNat := by
        simpa [writeSize] using hn
      exact ioChunks_mem _ _ hn2
  · intro size failAt hpos
    have hns : ¬ size ≤ 0 := by omega
    cases failAt with
    | none => rw [io_burst, if_neg hns]; simp
    | some j => rw [io_burst, if_neg hns]; simp

/-- Witness for claim C6: a five-byte write succeeds in one chunk, and the removal is
attempted even when the first write fails. -/
theorem c6_witness :
    ((io_burst 5 none).filterMap writeSize).sum = (5 : ℤ).toNat ∧
    IOAction.removeAttempt ∈ io_burst 5 (some 0) :=
  ⟨(c6_io_burst.2.1 5 (by decide)).1, c6_io_burst.2.2 5 (some 0) (by decide)⟩

end Stress

namespace Stress

/-- Counterexample to claim C4 as stated: in the Burst-mode orchestrator the
IOPressureEngine unit is not started before the MemoryPressureEngine runs — the
memory burst (step index 2 of burstMain) precedes io_proc.start() (step index 3). -/
theorem c4_counterexample :
    ¬ (burstMain.indexOf OrchStep.startIOUnit < burstMain.indexOf OrchStep.runMemBurst) := by
  decide

/-- Claim C4 as amended: in the Burst-mode orchestrator the baseline telemetry sample
comes first, the MemoryPressureEngine then runs inline, only then the
IOPressureEngine is started as an independently scheduled concurrent unit, the
CPUPressureEngine then runs inline in the parent (spawning its workers as concurrent
units and joining them before returning), the IO unit is then joined (with a bounded
timeout), and the final telemetry sample and the summary record come after those
joins. -/
theorem c4_step_order :
    burstMain.indexOf OrchStep.sampleCpuStat < burstMain.indexOf OrchStep.runMemBurst ∧
    burstMain.indexOf OrchStep.runMemBurst < burstMain.indexOf OrchStep.startIOUnit ∧
    burstMain.indexOf OrchStep.startIOUnit < burstMain.indexOf OrchStep.runCpuBurst ∧
    burstMain.indexOf OrchStep.runCpuBurst < burstMain.indexOf OrchStep.joinIOUnit ∧
    burstMain.indexOf OrchStep.joinIOUnit < burstMain.indexOf OrchStep.sampleFinal ∧
    burstMain.indexOf OrchStep.sampleFinal < burstMain.indexOf OrchStep.logSummary := by
  decide

/-- Counterexample to claim C7 as stated: in cpu_burst the parent joins each spawned
worker with no timeout at all, so the per-worker wait is not bounded by a finite
timeout. -/
theorem c7_counterexample :
    ¬ (∀ t ∈ cpu_burst_joinTimeouts 2, ∃ b : ℚ, t = some b) := by
  intro h
  obtain ⟨b, hb⟩ := h none (by decide)
  exact Option.noConfusion hb

/-- Claim C7 as amended: in the Ramp variant (run_cpu_ramp) every per-worker join at
shutdown carries the bounded timeout 1.0 s, but in the Burst variant (cpu_burst)
every per-worker join is issued without a timeout, the bound on the wait coming only
from the workers terminating at their own deadline. -/
theorem c7_join_timeouts :
    (∀ (n : ℕ) (t : Option ℚ), t ∈ run_cpu_ramp_joinTimeouts n → t = some 1) ∧
    (∀ (n : ℕ) (t : Option ℚ), t ∈ cpu_burst_joinTimeouts n → t = none) := by
  constructor
  · intro n t ht
    exact List.eq_of_mem_replicate ht
  · intro n t ht
    exact List.eq_of_mem_replicate ht

/-- Witness for claim C7 at three ramp workers and two burst workers. -/
theorem c7_witness :
    (some (1 : ℚ) = some 1) ∧ ((none : Option ℚ) = none) :=
  ⟨c7_join_timeouts.1 3 (some 1) (by decide), c7_join_timeouts.2 2 none (by decide)⟩

end Stress

namespace Stress

/-- A character with code below 65 is fixed by lower-casing. -/
lemma lowerC_of_lt (c : Char) (h : c.toNat < 65) : lowerC c = c := by
  rw [lowerC, if_neg]
  omega

/-- Digit characters have codes between 48 and 57. -/
lemma isDigitC_iff (c : Char) : isDigitC c = true ↔ 48 ≤ c.toNat ∧ c.toNat ≤ 57 := by
  simp [isDigitC]

/-- A digit character is not whitespace. -/
lemma digit_not_space (c : Char) (h : isDigitC c = true) : isSpace c = false := by
  have h2 := (isDigitC_iff c).mp h
  simp [isSpace]
  omega

/-- A whitespace character is fixed by lower-casing. -/
lemma lowerC_of_space (c : Char) (h : isSpace c = true) : lowerC c = c := by
  apply lowerC_of_lt
  simp [isSpace] at h
  omega

/-- dropWhile is the identity when no element satisfies the predicate. -/
lemma dropWhile_all_false (p : Char → Bool) (l : List Char)
    (h : ∀ x ∈ l, p x = false) : l.dropWhile p = l := by
  cases l with
  | nil => rfl
  | cons a t =>
    rw [List.dropWhile_cons, h a (List.mem_cons_self a t)]
    simp

/-- takeWhile keeps the whole list when every element satisfies the predicate. -/
lemma takeWhile_all_true (p : Char → Bool) (l : List Char)
    (h : ∀ x ∈ l, p x = true) : l.takeWhile p = l := by
  induction l with
  | nil => rfl
  | cons a t ih =>
    rw [List.takeWhile_cons, h a (List.mem_cons_self a t)]
    simp [ih fun x hx => h x (List.mem_cons_of_mem a hx)]

/-- dropWhile drops the whole list when every element satisfies the predicate. -/
lemma dropWhile_all_true (p : Char → Bool) (l : List Char)
    (h : ∀ x ∈ l, p x = true) : l.dropWhile p = [] := by
  induction l with
  | nil => rfl
  | cons a t ih =>
    rw [List.dropWhile_cons, h a (List.mem_cons_self a t)]
    simp [ih fun x hx => h x (List.mem_cons_of_mem a hx)]

/-- takeWhile passes over a fully satisfying front segment. -/
lemma takeWhile_append_all (p : Char → Bool) (l r : List Char)
    (h : ∀ x ∈ l, p x = true) :
    (l ++ r).takeWhile p = l ++ r.takeWhile p := by
  induction l with
  | nil => rfl
  | cons a t ih =>
    rw [List.cons_append, List.takeWhile_cons, h a (List.mem_cons_self a t)]
    simp [ih fun x hx => h x (List.mem_cons_of_mem a hx)]

/-- dropWhile passes over a fully satisfying front segment. -/
lemma dropWhile_append_all (p : Char → Bool) (l r : List Char)
    (h : ∀ x ∈ l, p x = true) :
    (l ++ r).dropWhile p = r.dropWhile p := by
  induction l with
  | nil => rfl
  | cons a t ih =>
    rw [List.cons_append, List.dropWhile_cons, h a (List.mem_cons_self a t)]
    simp [ih fun x hx => h x (List.mem_cons_of_mem a hx)]

/-- trimChars is the identity on a list with no whitespace. -/
lemma trimChars_all (l : List Char) (h : ∀ x ∈ l, isSpace x = false) :
    trimChars l = l := by
  rw [trimChars, dropWhile_all_false _ _ h,
    dropWhile_all_false _ _ (fun x hx => h x (List.mem_reverse.mp hx)),
    List.reverse_reverse]

/-- Lower-casing is the identity on a list of characters with codes below 65. -/
lemma map_lowerC_id (l : List Char) (h : ∀ x ∈ l, x.toNat < 65) :
    l.map lowerC = l := by
  induction l with
  | nil => rfl
  | cons a t ih =>
    rw [List.map_cons, lowerC_of_lt a (h a (List.mem_cons_self a t)),
      ih fun x hx => h x (List.mem_cons_of_mem a hx)]

/-- Evaluation form of endsWithU on an appended suffix. -/
lemma endsWithU_app (ds v u : List Char) :
    endsWithU (ds ++ v) u = headMatch u.reverse (v.reverse ++ ds.reverse) := by
  rw [endsWithU, List.reverse_append]

/-- Characters that differ cannot be beq-equal. -/
lemma beq_eq_false_of_digit (a c : Char) (ha : isDigitC a = false)
    (hc : isDigitC c = true) : (a == c) = false := by
  refine beq_eq_false_iff_ne.mpr ?_
  intro h
  rw [h] at ha
  rw [hc] at ha
  exact Bool.noConfusion ha

end Stress

namespace Stress

/-- Unit-dispatch of psAfter: a string ending in a unit suffix takes exactly the
branch of that unit, whatever the front of the string is; the earlier entries of the
table cannot match because their last characters differ. -/
lemma psAfter_unit (ds : List Char) (u : SizeUnit) :
    psAfter (ds ++ u.chars) = sizeBranch (ds ++ u.chars) u.chars.length u.pow := by
  cases u
  case ki =>
    have h1 : endsWithU (ds ++ ['k', 'i']) ['k', 'i'] = true := by
      rw [endsWithU_app]; rfl
    simp [psAfter, SizeUnit.chars, SizeUnit.mul, SizeUnit.pow, h1]
  case mi =>
    have h1 : endsWithU (ds ++ ['m', 'i']) ['k', 'i'] = false := by
      rw [endsWithU_app]; rfl
    have h2 : endsWithU (ds ++ ['m', 'i']) ['m', 'i'] = true := by
      rw [endsWithU_app]; rfl
    simp [psAfter, SizeUnit.chars, SizeUnit.mul, SizeUnit.pow, h1, h2]
  case gi =>
    have h1 : endsWithU (ds ++ ['g', 'i']) ['k', 'i'] = false := by
      rw [endsWithU_app]; rfl
    have h2 : endsWithU (ds ++ ['g', 'i']) ['m', 'i'] = false := by
      rw [endsWithU_app]; rfl
    have h3 : endsWithU (ds ++ ['g', 'i']) ['g', 'i'] = true := by
      rw [endsWithU_app]; rfl
    simp [psAfter, SizeUnit.chars, SizeUnit.mul, SizeUnit.pow, h1, h2, h3]
  case ti =>
    have h1 : endsWithU (ds ++ ['t', 'i']) ['k', 'i'] = false := by
      rw [endsWithU_app]; rfl
    have h2 : endsWithU (ds ++ ['t', 'i']) ['m', 'i'] = false := by
      rw [endsWithU_app]; rfl
    have h3 : endsWithU (ds ++ ['t', 'i']) ['g', 'i'] = false := by
      rw [endsWithU_app]; rfl
    have h4 : endsWithU (ds ++ ['t', 'i']) ['t', 'i'] = true := by
      rw [endsWithU_app]; rfl
    simp [psAfter, SizeUnit.chars, SizeUnit.mul, SizeUnit.pow, h1, h2, h3, h4]
  case k =>
    have h1 : endsWithU (ds ++ ['k']) ['k', 'i'] = false := by
      rw [endsWithU_app]; rfl
    have h2 : endsWithU (ds ++ ['k']) ['m', 'i'] = false := by
      rw [endsWithU_app]; rfl
    have h3 : endsWithU (ds ++ ['k']) ['g', 'i'] = false := by
      rw [endsWithU_app]; rfl
    have h4 : endsWithU (ds ++ ['k']) ['t', 'i'] = false := by
      rw [endsWithU_app]; rfl
    have h5 : endsWithU (ds ++ ['k']) ['k'] = true := by
      rw [endsWithU_app]; rfl
    simp [psAfter, SizeUnit.chars, SizeUnit.mul, SizeUnit.pow, h1, h2, h3, h4, h5]
  case m =>
    have h1 : endsWithU (ds ++ ['m']) ['k', 'i'] = false := by
      rw [endsWithU_app]; rfl
    have h2 : endsWithU (ds ++ ['m']) ['m', 'i'] = false := by
      rw [endsWithU_app]; rfl
    have h3 : endsWithU (ds ++ ['m']) ['g', 'i'] = false := by
      rw [endsWithU_app]; rfl
    have h4 : endsWithU (ds ++ ['m']) ['t', 'i'] = false := by
      rw [endsWithU_app]; rfl
    have h5 : endsWithU (ds ++ ['m']) ['k'] = false := by
      rw [endsWithU_app]; rfl
    have h6 : endsWithU (ds ++ ['m']) ['m'] = true := by
      rw [endsWithU_app]; rfl
    simp [psAfter, SizeUnit.chars, SizeUnit.mul, SizeUnit.pow, h1, h2, h3, h4, h5, h6]
  case g =>
    have h1 : endsWithU (ds ++ ['g']) ['k', 'i'] = false := by
      rw [endsWithU_app]; rfl
    have h2 : endsWithU (ds ++ ['g']) ['m', 'i'] = false := by
      rw [endsWithU_app]; rfl
    have h3 : endsWithU (ds ++ ['g']) ['g', 'i'] = false := by
      rw [endsWithU_app]; rfl
    have h4 : endsWithU (ds ++ ['g']) ['t', 'i'] = false := by
      rw [endsWithU_app]; rfl
    have h5 : endsWithU (ds ++ ['g']) ['k'] = false := by
      rw [endsWithU_app]; rfl
    have h6 : endsWithU (ds ++ ['g']) ['m'] = false := by
      rw [endsWithU_app]; rfl
    have h7 : endsWithU (ds ++ ['g']) ['g'] = true := by
      rw [endsWithU_app]; rfl
    simp [psAfter, SizeUnit.chars, SizeUnit.mul, SizeUnit.pow, h1, h2, h3, h4, h5, h6, h7]
  case t =>
    have h1 : endsWithU (ds ++ ['t']) ['k', 'i'] = false := by
      rw [endsWithU_app]; rfl
    have h2 : endsWithU (ds ++ ['t']) ['m', 'i'] = false := by
      rw [endsWithU_app]; rfl
    have h3 : endsWithU (ds ++ ['t']) ['g', 'i'] = false := by
      rw [endsWithU_app]; rfl
    have h4 : endsWithU (ds ++ ['t']) ['t', 'i'] = false := by
      rw [endsWithU_app]; rfl
    have h5 : endsWithU (ds ++ ['t']) ['k'] = false := by
      rw [endsWithU_app]; rfl
    have h6 : endsWithU (ds ++ ['t']) ['m'] = false := by
      rw [endsWithU_app]; rfl
    have h7 : endsWithU (ds ++ ['t']) ['g'] = false := by
      rw [endsWithU_app]; rfl
    have h8 : endsWithU (ds ++ ['t']) ['t'] = true := by
      rw [endsWithU_app]; rfl
    simp [psAfter, SizeUnit.chars, SizeUnit.mul, SizeUnit.pow,
      h1, h2, h3, h4, h5, h6, h7, h8]

end Stress

namespace Stress

/-- A digit character is never beq-equal to a non-digit character. -/
lemma digit_beq_false (c d : Char) (hc : isDigitC c = true) (hd : isDigitC d = false) :
    (c == d) = false := by
  refine beq_eq_false_iff_ne.mpr ?_
  intro h
  rw [h] at hc
  rw [hc] at hd
  exact Bool.noConfusion hd

/-- A non-digit character is never beq-equal to a digit character. -/
lemma nondigit_beq_false (d c : Char) (hd : isDigitC d = false) (hc : isDigitC c = true) :
    (d == c) = false := by
  refine beq_eq_false_iff_ne.mpr ?_
  intro h
  rw [← h] at hc
  rw [hc] at hd
  exact Bool.noConfusion hd

/-- A nonempty all-digit string matches none of the unit suffixes: its last character
is a digit while every suffix ends in a letter. -/
lemma endsWithU_digits (ds : List Char) (hne : ds ≠ []) (hd : digitsOnly ds = true)
    (u : SizeUnit) : endsWithU ds u.chars = false := by
  cases hrev : ds.reverse with
  | nil => exact absurd (List.reverse_eq_nil_iff.mp hrev) hne
  | cons c rest =>
    have hc : isDigitC c = true := by
      have hmem : c ∈ ds := List.mem_reverse.mp (hrev ▸ List.mem_cons_self c rest)
      exact List.all_eq_true.mp hd c hmem
    rw [endsWithU, hrev]
    cases u
    case ki =>
      have h := nondigit_beq_false 'i' c (by decide) hc
      show headMatch ['i', 'k'] (c :: rest) = false
      simp [headMatch, h]
    case mi =>
      have h := nondigit_beq_false 'i' c (by decide) hc
      show headMatch ['i', 'm'] (c :: rest) = false
      simp [headMatch, h]
    case gi =>
      have h := nondigit_beq_false 'i' c (by decide) hc
      show headMatch ['i', 'g'] (c :: rest) = false
      simp [headMatch, h]
    case ti =>
      have h := nondigit_beq_false 'i' c (by decide) hc
      show headMatch ['i', 't'] (c :: rest) = false
      simp [headMatch, h]
    case k =>
      have h := nondigit_beq_false 'k' c (by decide) hc
      show headMatch ['k'] (c :: rest) = false
      simp [headMatch, h]
    case m =>
      have h := nondigit_beq_false 'm' c (by decide) hc
      show headMatch ['m'] (c :: rest) = false
      simp [headMatch, h]
    case g =>
      have h := nondigit_beq_false 'g' c (by decide) hc
      show headMatch ['g'] (c :: rest) = false
      simp [headMatch, h]
    case t =>
      have h := nondigit_beq_false 't' c (by decide) hc
      show headMatch ['t'] (c :: rest) = false
      simp [headMatch, h]

/-- No character of a unit suffix is whitespace. -/
lemma unit_chars_not_space (u : SizeUnit) : ∀ x ∈ u.chars, isSpace x = false := by
  cases u <;> decide

/-- A preimage of a unit suffix under lower-casing contains no whitespace, since
lower-casing fixes whitespace. -/
lemma unit_preimage_not_space (us : List Char) (u : SizeUnit)
    (hus : us.map lowerC = u.chars) : ∀ x ∈ us, isSpace x = false := by
  intro x hx
  cases hxs : isSpace x with
  | false => rfl
  | true =>
    have hfix : lowerC x = x := lowerC_of_space x hxs
    have hmem : lowerC x ∈ u.chars := hus ▸ List.mem_map_of_mem lowerC hx
    rw [hfix] at hmem
    rw [unit_chars_not_space u x hmem] at hxs
    exact Bool.noConfusion hxs

/-- Canonicalisation of parse_size input: stripping and lower-casing a string made of
a low-code spaceless front followed by any-case unit characters yields the front
unchanged followed by the lower-case unit. -/
lemma canon_append (ds us : List Char) (u : SizeUnit)
    (hlow : ∀ x ∈ ds, x.toNat < 65)
    (hsp : ∀ x ∈ ds, isSpace x = false)
    (hus : us.map lowerC = u.chars) :
    (trimChars (ds ++ us)).map lowerC = ds ++ u.chars := by
  have husSp := unit_preimage_not_space us u hus
  have hall : ∀ x ∈ ds ++ us, isSpace x = false := by
    intro x hx
    rcases List.mem_append.mp hx with h | h
    · exact hsp x h
    · exact husSp x h
  rw [trimChars_all _ hall, List.map_append, hus, map_lowerC_id ds hlow]

end Stress

namespace Stress

/-- pyFloat on a nonempty all-digit string returns, with positive sign, its value
rounded to binary64 over denominator one. -/
lemma pyFloat_digits (ds : List Char) (hne : ds ≠ []) (hd : digitsOnly ds = true) :
    pyFloat ds = some (false, roundDbl (charsVal ds) 1) := by
  obtain ⟨c, t, rfl⟩ : ∃ c t, ds = c :: t := by
    cases ds with
    | nil => exact absurd rfl hne
    | cons c t => exact ⟨c, t, rfl⟩
  have hc : isDigitC c = true := List.all_eq_true.mp hd c (List.mem_cons_self c t)
  have hnm : (c == '-') = false := digit_beq_false c '-' hc (by decide)
  have hnp : (c == '+') = false := digit_beq_false c '+' hc (by decide)
  have hpt : ∀ x ∈ c :: t, (!(x == '.')) = true := by
    intro x hx
    rw [digit_beq_false x '.' (List.all_eq_true.mp hd x hx) (by decide)]
    rfl
  have htake : (c :: t).takeWhile (fun ch => !(ch == '.')) = c :: t :=
    takeWhile_all_true _ _ hpt
  have hdrop : (c :: t).dropWhile (fun ch => !(ch == '.')) = [] :=
    dropWhile_all_true _ _ hpt
  simp [pyFloat, hnm, hnp, pyFloatMag, htake, hdrop, hd]

/-- pyInt on a nonempty all-digit string returns its value. -/
lemma pyInt_digits (ds : List Char) (hne : ds ≠ []) (hd : digitsOnly ds = true) :
    pyInt ds = some ((charsVal ds : ℤ)) := by
  obtain ⟨c, t, rfl⟩ : ∃ c t, ds = c :: t := by
    cases ds with
    | nil => exact absurd rfl hne
    | cons c t => exact ⟨c, t, rfl⟩
  have hc : isDigitC c = true := List.all_eq_true.mp hd c (List.mem_cons_self c t)
  have hnm : (c == '-') = false := digit_beq_false c '-' hc (by decide)
  have hnp : (c == '+') = false := digit_beq_false c '+' hc (by decide)
  simp [pyInt, hnm, hnp, hd]

/-- Digit characters have codes below 65. -/
lemma digits_low (ds : List Char) (hd : digitsOnly ds = true) :
    ∀ x ∈ ds, x.toNat < 65 := by
  intro x hx
  have := (isDigitC_iff x).mp (List.all_eq_true.mp hd x hx)
  omega

/-- Digit strings contain no whitespace. -/
lemma digits_nospace (ds : List Char) (hd : digitsOnly ds = true) :
    ∀ x ∈ ds, isSpace x = false := by
  intro x hx
  exact digit_not_space x (List.all_eq_true.mp hd x hx)

end Stress

namespace Stress

/-- Bounds of the fuel-bounded floor log2: with fuel at least n, the result k of a
positive n satisfies 2 ^ k ≤ n < 2 ^ (k + 1). -/
lemma log2p_bounds : ∀ (fuel n : ℕ), 1 ≤ n → n ≤ fuel →
    2 ^ log2p fuel n ≤ n ∧ n < 2 ^ (log2p fuel n + 1) := by
  intro fuel
  induction fuel with
  | zero => intro n h1 h2; omega
  | succ f ih =>
    intro n h1 h2
    rw [log2p]
    by_cases hn : n < 2
    · rw [if_pos hn]
      simp
      omega
    · rw [if_neg hn]
      obtain ⟨hl, hr⟩ := ih (n / 2) (by omega) (by omega)
      have hp1 : (2 : ℕ) ^ (log2p f (n / 2) + 1) = 2 * 2 ^ log2p f (n / 2) := by
        rw [pow_succ]; ring
      have hp2 : (2 : ℕ) ^ (log2p f (n / 2) + 1 + 1) = 2 * 2 ^ (log2p f (n / 2) + 1) := by
        rw [pow_succ (2 : ℕ) (log2p f (n / 2) + 1)]; ring
      exact ⟨by omega, by omega⟩

/-- Bounds of natLog2 on positive naturals. -/
lemma natLog2_bounds (n : ℕ) (h : 1 ≤ n) :
    2 ^ natLog2 n ≤ n ∧ n < 2 ^ (natLog2 n + 1) :=
  log2p_bounds n n h le_rfl

/-- natLog2 of one is zero. -/
lemma natLog2_one : natLog2 1 = 0 := rfl

/-- On an integer (denominator one), ilog2 agrees with natLog2. -/
lemma ilog2_int (n : ℕ) (h : 1 ≤ n) : ilog2 n 1 = (natLog2 n : ℤ) := by
  have h1 := (natLog2_bounds n h).1
  rw [ilog2, natLog2_one]
  rw [if_pos (by simpa using h1)]
  simp

/-- Rounding a fraction with denominator one is the identity. -/
lemma rnearest_one (x : ℕ) : rnearest x 1 = x := by
  simp [rnearest, Nat.mod_one, Nat.div_one]

/-- A positive natural below 2 ^ 53 has floor log2 at most 52. -/
lemma natLog2_le_52 (n : ℕ) (h1 : 1 ≤ n) (h2 : n < 2 ^ 53) : natLog2 n ≤ 52 := by
  by_contra hgt
  have h53 : 53 ≤ natLog2 n := by omega
  have : (2 : ℕ) ^ 53 ≤ 2 ^ natLog2 n := Nat.pow_le_pow_right (by omega) h53
  have := (natLog2_bounds n h1).1
  omega

/-- Rounding an integer below 2 ^ 53 to binary64 is exact: the grid step 2 ^ (e - 52)
is at most one, so the integer is on the grid and the mantissa carries it whole. -/
lemma roundDbl_int (n : ℕ) (h1 : 1 ≤ n) (h2 : n < 2 ^ 53) :
    roundDbl n 1 = DblMag.finite (n * 2 ^ (52 - natLog2 n)) ((natLog2 n : ℤ) - 52) := by
  have ha52 := natLog2_le_52 n h1 h2
  rw [roundDbl, ilog2_int n h1]
  have ht : max ((natLog2 n : ℤ) - 52) (-1074) = (natLog2 n : ℤ) - 52 := by omega
  rw [ht]
  have hneg : (max 0 (-((natLog2 n : ℤ) - 52))).toNat = 52 - natLog2 n := by omega
  have hpos : (max 0 ((natLog2 n : ℤ) - 52)).toNat = 0 := by omega
  rw [hneg, hpos]
  simp only [pow_zero, mul_one, rnearest_one]
  have hov : dblTooBig (n * 2 ^ (52 - natLog2 n)) ((natLog2 n : ℤ) - 52) = false := by
    rw [dblTooBig, hneg, hpos]
    simp only [pow_zero, mul_one, decide_eq_false_iff_not, not_le]
    have hlt : n < 2 ^ 1024 := by
      have : (2 : ℕ) ^ 53 ≤ 2 ^ 1024 := Nat.pow_le_pow_right (by omega) (by omega)
      omega
    have hp : 0 < (2 : ℕ) ^ (52 - natLog2 n) := Nat.pos_pow_of_pos _ (by omega)
    exact (Nat.mul_lt_mul_right hp).mpr hlt
  rw [hov]
  simp

set_option maxRecDepth 100000 in
/-- Multiplying the exactly held integer by 2 ^ p and truncating returns the exact
product: the power-of-two scaling shifts only the exponent, and the value
n * 2 ^ p < 2 ^ 93 stays far from the overflow threshold. -/
lemma intOfScaled_int (n p : ℕ) (h1 : 1 ≤ n) (h2 : n < 2 ^ 53) (hp2 : p ≤ 40) :
    intOfScaled false (roundDbl n 1) p = some ((n * 2 ^ p : ℕ) : ℤ) := by
  have ha52 := natLog2_le_52 n h1 h2
  have hnp : n * 2 ^ p < 2 ^ 1024 := by
    have hb1 : n * 2 ^ p < 2 ^ 53 * 2 ^ p :=
      (Nat.mul_lt_mul_right (Nat.pos_pow_of_pos _ (by omega))).mpr h2
    have hb2 : (2 : ℕ) ^ 53 * 2 ^ p ≤ 2 ^ 53 * 2 ^ 40 :=
      Nat.mul_le_mul_left _ (Nat.pow_le_pow_right (by omega) hp2)
    have hb3 : (2 : ℕ) ^ 53 * 2 ^ 40 = 2 ^ 93 := by
      rw [← pow_add]
    have hb4 : (2 : ℕ) ^ 93 ≤ 2 ^ 1024 := Nat.pow_le_pow_right (by omega) (by omega)
    omega
  rw [roundDbl_int n h1 h2, intOfScaled]
  have hov : dblTooBig (n * 2 ^ (52 - natLog2 n)) ((natLog2 n : ℤ) - 52 + p) = false := by
    rw [dblTooBig]
    simp only [decide_eq_false_iff_not, not_le]
    rcases le_or_lt (52 - (natLog2 n : ℤ)) p with hs | hs
    · have e1 : (max 0 (-((natLog2 n : ℤ) - 52 + p))).toNat = 0 := by omega
      have e2 : (max 0 ((natLog2 n : ℤ) - 52 + p)).toNat = natLog2 n + p - 52 := by
        omega
      rw [e1, e2]
      simp only [pow_zero, mul_one]
      have e3 : n * 2 ^ (52 - natLog2 n) * 2 ^ (natLog2 n + p - 52) = n * 2 ^ p := by
        rw [mul_assoc, ← pow_add]
        congr 2
        omega
      rw [e3]
      omega
    · have e1 : (max 0 (-((natLog2 n : ℤ) - 52 + p))).toNat = 52 - natLog2 n - p := by
        omega
      have e2 : (max 0 ((natLog2 n : ℤ) - 52 + p)).toNat = 0 := by omega
      rw [e1, e2]
      simp only [pow_zero, mul_one]
      have e3 : n * 2 ^ (52 - natLog2 n) = n * 2 ^ p * 2 ^ (52 - natLog2 n - p) := by
        rw [mul_assoc, ← pow_add]
        congr 2
        omega
      have e4 : (2 : ℕ) ^ 1024 * 2 ^ (52 - natLog2 n - p)
          > n * 2 ^ p * 2 ^ (52 - natLog2 n - p) :=
        (Nat.mul_lt_mul_right (Nat.pos_pow_of_pos _ (by omega))).mpr hnp
      omega
  rw [hov]
  simp only [Bool.false_eq_true, if_false]
  rcases le_or_lt (0 : ℤ) ((natLog2 n : ℤ) - 52 + p) with hs | hs
  · rw [if_pos hs]
    have e2 : ((natLog2 n : ℤ) - 52 + p).toNat = natLog2 n + p - 52 := by omega
    rw [e2]
    have e3 : n * 2 ^ (52 - natLog2 n) * 2 ^ (natLog2 n + p - 52) = n * 2 ^ p := by
      rw [mul_assoc, ← pow_add]
      congr 2
      omega
    rw [e3]
  · rw [if_neg (by omega)]
    have e1 : (-((natLog2 n : ℤ) - 52 + p)).toNat = 52 - natLog2 n - p := by omega
    rw [e1]
    have e3 : n * 2 ^ (52 - natLog2 n) = n * 2 ^ p * 2 ^ (52 - natLog2 n - p) := by
      rw [mul_assoc, ← pow_add]
      congr 2
      omega
    rw [e3, Nat.mul_div_cancel _ (Nat.pos_pow_of_pos _ (by omega))]

set_option maxRecDepth 100000 in
/-- Rounding zero to binary64 yields a zero mantissa. -/
lemma roundDbl_zero : roundDbl 0 1 = DblMag.finite 0 (-53) := by decide

/-- Scaling and truncating the zero double yields zero. -/
lemma intOfScaled_zero (p : ℕ) (hp2 : p ≤ 40) :
    intOfScaled false (roundDbl 0 1) p = some 0 := by
  rw [roundDbl_zero, intOfScaled]
  have hov : dblTooBig 0 (-53 + (p : ℤ)) = false := by
    rw [dblTooBig]
    simp only [decide_eq_false_iff_not, not_le, Nat.zero_mul, zero_mul]
    positivity
  rw [hov]
  simp only [Bool.false_eq_true, if_false]
  rw [if_neg (by omega)]
  simp

set_option maxRecDepth 100000 in
/-- Counterexample to claim C8 as stated, at two inputs.  On "0.1k" the number is
1/10 and the claimed return value number × 1024 = 102.4 is not an integer; parse_size
returns the truncated 102, so no integer return value can equal the claimed product.
On the integer input "9007199254740993k" (the decimal for 2 ^ 53 + 1, which binary64
cannot represent) the float conversion in the source rounds to 2 ^ 53 before the
multiplication, so parse_size returns 2 ^ 63 = 9223372036854775808 and not
9007199254740993 × 1024 = 9223372036854776832. -/
theorem c8_counterexample :
    (parse_size "0.1k" = some 102 ∧ ¬ ((102 : ℚ) = (1 : ℚ) / 10 * 1024)) ∧
    (parse_size "9007199254740993k" = some 9223372036854775808 ∧
      (9223372036854775808 : ℤ) ≠ 9007199254740993 * 1024) := by
  refine ⟨⟨by decide, by norm_num⟩, by decide, by decide⟩

/-- Claim C8 as amended: for a decimal number immediately followed by a unit suffix
from the table in any letter case, parse_size returns the truncation toward zero of
the binary64 value of the number times 1024^power(unit) — the decimal is first
rounded to 53-bit precision, as the float conversion of the source does; in
particular, for every integer decimal number with value below 2 ^ 53 (hence exactly
representable in binary64) it returns exactly number × 1024^power(unit), where power
is 1 for k/ki, 2 for m/mi, 3 for g/gi and 4 for t/ti.  Stated over digit strings:
ds are the digits of the number and us is the unit suffix as typed, its lower-casing
being the table entry of u. -/
theorem c8_parse_units :
    ∀ (ds us : List Char) (u : SizeUnit),
      ds ≠ [] → digitsOnly ds = true → charsVal ds < 2 ^ 53 →
      us.map lowerC = u.chars →
      parse_size (String.mk (ds ++ us)) = some ((charsVal ds * u.mul : ℕ) : ℤ) := by
  intro ds us u hne hd hlt hus
  show parseSizeChars (ds ++ us) = _
  rw [parseSizeChars,
    canon_append ds us u (digits_low ds hd) (digits_nospace ds hd) hus,
    psAfter_unit, sizeBranch]
  have hlen : (ds ++ u.chars).length - u.chars.length = ds.length := by
    simp
  rw [hlen, List.take_left, pyFloat_digits ds hne hd]
  have hmul : u.mul = 2 ^ (10 * u.pow) := by cases u <;> decide
  have hpw : 10 * u.pow ≤ 40 := by cases u <;> decide
  rcases Nat.eq_zero_or_pos (charsVal ds) with hz | hpos
  · rw [hz]
    simp only [Option.some_bind]
    rw [intOfScaled_zero (10 * u.pow) hpw]
    simp
  · simp only [Option.some_bind]
    rw [intOfScaled_int (charsVal ds) (10 * u.pow) hpos hlt hpw, hmul]

/-- Witness for claim C8: "128Mi" in mixed case parses to exactly 128 MiB. -/
theorem c8_witness :
    parse_size (String.mk ['1', '2', '8', 'M', 'i']) = some 134217728 :=
  c8_parse_units ['1', '2', '8'] ['M', 'i'] SizeUnit.mi (by decide) (by decide)
    (by decide) (by decide)

/-- Counterexample to claim C9 as stated: the bare fractional number "1.5" does not
parse to a byte count — int("1.5") raises ValueError in the source, modelled as
none. -/
theorem c9_counterexample : parse_size "1.5" = none := by
  decide

/-- Claim C9 as amended: a bare decimal integer with no unit suffix parses to exactly
that many raw bytes; a bare number with a fractional part instead raises ValueError
(see the counterexample), because the fallback branch is Python int(s), which rejects
fractional literals. -/
theorem c9_parse_bare :
    ∀ ds : List Char, ds ≠ [] → digitsOnly ds = true →
      parse_size (String.mk ds) = some ((charsVal ds : ℤ)) := by
  intro ds hne hd
  show parseSizeChars ds = _
  rw [parseSizeChars, trimChars_all ds (digits_nospace ds hd),
    map_lowerC_id ds (digits_low ds hd)]
  have h1 : endsWithU ds ['k', 'i'] = false := endsWithU_digits ds hne hd SizeUnit.ki
  have h2 : endsWithU ds ['m', 'i'] = false := endsWithU_digits ds hne hd SizeUnit.mi
  have h3 : endsWithU ds ['g', 'i'] = false := endsWithU_digits ds hne hd SizeUnit.gi
  have h4 : endsWithU ds ['t', 'i'] = false := endsWithU_digits ds hne hd SizeUnit.ti
  have h5 : endsWithU ds ['k'] = false := endsWithU_digits ds hne hd SizeUnit.k
  have h6 : endsWithU ds ['m'] = false := endsWithU_digits ds hne hd SizeUnit.m
  have h7 : endsWithU ds ['g'] = false := endsWithU_digits ds hne hd SizeUnit.g
  have h8 : endsWithU ds ['t'] = false := endsWithU_digits ds hne hd SizeUnit.t
  rw [psAfter]
  simp [h1, h2, h3, h4, h5, h6, h7, h8, pyInt_digits ds hne hd]

/-- Witness for claim C9: "42" parses to 42 bytes. -/
theorem c9_witness : parse_size (String.mk ['4', '2']) = some 42 :=
  c9_parse_bare ['4', '2'] (by decide) (by decide)

end Stress
